import Mathlib

/-!
Shallow embedding of the roster-extraction core of `src/app.py`:
text normalization, date segmentation, service-match event building,
activity resolution, and post-processing.  Instants are modelled as
naive local times in minutes since day 0 of the proleptic Gregorian
calendar (`ordinal * 1440 + minuteOfDay`), which matches `datetime`
arithmetic (comparison, `timedelta(days=1)`, `.date()`, `.time()`).
Text is modelled as `List Char` (Python string indices are code
points).  Character classes (`\s`, `\w`, `str.lower`, `str.title`)
are modelled over ASCII plus the Latin-1 letters that the source's
patterns mention.
-/

namespace Rooster

/-- ASCII approximation of Python whitespace (the `\s` class and the
default `str.strip`). -/
def pyIsSpace (c : Char) : Bool :=
  c = ' ' || c = '\t' || c = '\n' || c = '\r' || c = '\x0b' || c = '\x0c'

/-- ASCII decimal digit (the `\d` class). -/
def pyIsDigit (c : Char) : Bool :=
  '0' ≤ c && c ≤ '9'

/-- Letters as used by the source's patterns: ASCII plus the Latin-1
range `À-ÖØ-öø-ÿ`. -/
def pyIsAlpha (c : Char) : Bool :=
  ('A' ≤ c && c ≤ 'Z') || ('a' ≤ c && c ≤ 'z') ||
  ('À' ≤ c && c ≤ 'ÿ' && c ≠ '×' && c ≠ '÷')

/-- Word characters (the `\w` class): letters, digits, underscore. -/
def pyIsWord (c : Char) : Bool :=
  pyIsAlpha c || pyIsDigit c || c = '_'

/-- `str.lower` on one character (ASCII and Latin-1 uppercase). -/
def pyLowerChar (c : Char) : Char :=
  if ('A' ≤ c && c ≤ 'Z') || ('À' ≤ c && c ≤ 'Þ' && c ≠ '×') then
    Char.ofNat (c.toNat + 32)
  else c

/-- `str.upper` on one character (ASCII and Latin-1 lowercase). -/
def pyUpperChar (c : Char) : Char :=
  if ('a' ≤ c && c ≤ 'z') || ('à' ≤ c && c ≤ 'þ' && c ≠ '÷') then
    Char.ofNat (c.toNat - 32)
  else c

def pyLower (s : String) : String :=
  (s.toList.map pyLowerChar).asString

def pyUpper (s : String) : String :=
  (s.toList.map pyUpperChar).asString

/-- `str.title`: the first letter of each alphabetic run is uppercased,
later letters of the run are lowercased. -/
def pyTitleAux : Bool → List Char → List Char
  | _, [] => []
  | prevAlpha, c :: t =>
    (if pyIsAlpha c then (if prevAlpha then pyLowerChar c else pyUpperChar c) else c)
      :: pyTitleAux (pyIsAlpha c) t

def pyTitle (s : String) : String :=
  (pyTitleAux false s.toList).asString

/-- The character set of `.strip(" :/.-–—\t\n\r")` in
`_clean_text_short`. -/
def cleanStripSet : List Char :=
  [' ', ':', '/', '.', '-', '–', '—', '\t', '\n', '\r']

def stripLeft (sset : List Char) (l : List Char) : List Char :=
  l.dropWhile (fun c => c ∈ sset)

/-- `str.strip(chars)`: drop members of the set from both ends. -/
def pyStrip (sset : List Char) (l : List Char) : List Char :=
  (stripLeft sset (stripLeft sset l.reverse).reverse)

/-- `str.strip()` with no argument: strip whitespace from both ends. -/
def pyStripWs (l : List Char) : List Char :=
  (l.dropWhile pyIsSpace).reverse.dropWhile pyIsSpace |>.reverse

/-- `re.sub(r"\s+", " ", s)`: collapse every whitespace run to a single
space.  The flag records whether the previous character was whitespace. -/
def collapseWsAux : Bool → List Char → List Char
  | _, [] => []
  | prevSpace, c :: t =>
    if pyIsSpace c then
      if prevSpace then collapseWsAux true t else ' ' :: collapseWsAux true t
    else c :: collapseWsAux false t

def collapseWs (l : List Char) : List Char :=
  collapseWsAux false l

/-- `_clean_text_short` (`src/app.py` lines 74-77): strip the
punctuation set, collapse whitespace, cap to 80 characters. -/
def clean_text_short (s : String) : String :=
  ((collapseWs (pyStrip cleanStripSet s.toList)).take 80).asString

/-- Whether `needle` is a prefix of `hay` (character lists). -/
def prefOf : List Char → List Char → Bool
  | [], _ => true
  | _ :: _, [] => false
  | a :: as, b :: bs => a = b && prefOf as bs

/-- Whether `needle` occurs as a contiguous substring of `hay`
(Python's `in` on strings). -/
def listHasSub (needle : List Char) : List Char → Bool
  | [] => prefOf needle []
  | c :: t => prefOf needle (c :: t) || listHasSub needle t

def strHasSub (hay needle : String) : Bool :=
  listHasSub needle.toList hay.toList

/-- `re.search(r"(?i)rust", s)` (`src/app.py` line 181): the letters
r-u-s-t occur consecutively in any letter case. -/
def containsRustCI (s : String) : Bool :=
  strHasSub (pyLower s) "rust"

/-- `_service_title` (`src/app.py` lines 79-88). -/
def service_title (service_raw : String) : String :=
  let t := clean_text_short service_raw
  let up := pyUpper t
  if strHasSub up "CONSIG" then "Consig"
  else if strHasSub up "DIENST" then "Dienst"
  else if strHasSub up "RUST" then "Rust"
  else pyTitle t

/-- Match a literal string case-insensitively at the head of `l`;
return the rest on success. -/
def eatLitCI : List Char → List Char → Option (List Char)
  | [], l => some l
  | _ :: _, [] => none
  | p :: ps, c :: cs => if pyLowerChar c = pyLowerChar p then eatLitCI ps cs else none

/-- The capture of `\s*(.+)` at the head of `l5` under leftmost-greedy
backtracking: `\s*` takes the maximal whitespace run, gives characters
back until `.+` (one or more non-newline characters, greedy) can match. -/
def capDotPlus (l5 : List Char) : Option (List Char) :=
  let rest := l5.dropWhile pyIsSpace
  if rest ≠ [] then some (rest.takeWhile (fun c => c ≠ '\n'))
  else
    match ((l5.takeWhile pyIsSpace).reverse.dropWhile (fun c => c = '\n')) with
    | [] => none
    | c :: _ => some [c]

/-- Attempt `(?i)Memo:\s*Activiteit\s*:\s*(.+)` at the head of `l`;
return the captured group. -/
def tryMemoAt (l : List Char) : Option (List Char) := do
  let l1 ← eatLitCI "memo:".toList l
  let l2 := l1.dropWhile pyIsSpace
  let l3 ← eatLitCI "activiteit".toList l2
  let l4 := l3.dropWhile pyIsSpace
  let l5 ← eatLitCI ":".toList l4
  capDotPlus l5

/-- `re.search` for the memo pattern: first position (leftmost) at
which the pattern matches, returning the captured group. -/
def memoSearch : List Char → Option (List Char)
  | [] => tryMemoAt []
  | c :: t =>
    match tryMemoAt (c :: t) with
    | some cap => some cap
    | none => memoSearch t

/-- The canonical activity vocabulary of `_activity_tag_from_text`
(`src/app.py` lines 94-98), in source order. -/
def known : List String :=
  ["wijkzorg", "achterwacht", "surveilleren", "operationeel coördineren",
   "operationeel coordinator", "toezicht houden", "trainen",
   "werkverdelen", "monitoren", "evenementen", "afhandelen meldingen"]

/-- A duty-verb pattern: a `\b`-delimited sequence of words separated
by `\s+`, where each word is one of a set of equal-length alternative
spellings, plus an optional greedy suffix of further words. -/
structure VerbPat where
  words : List (List String)
  opt : List (List String)

/-- The verb patterns of `_activity_tag_from_text`
(`src/app.py` lines 104-116), in source order. -/
def verbPats : List VerbPat :=
  [⟨[["uitvoeren"], ["wijkzorg"]], []⟩,
   ⟨[["surveilleren"]], []⟩,
   ⟨[["werkverdelen"]], [["en"], ["monitoren"]]⟩,
   ⟨[["monitoren"]], []⟩,
   ⟨[["operationeel"], ["coordineren", "coördineren"]], []⟩,
   ⟨[["toezicht"], ["houden"]], []⟩,
   ⟨[["trainen"]], []⟩,
   ⟨[["evenementen"]], []⟩,
   ⟨[["achterwacht"]], []⟩,
   ⟨[["afhandelen"], ["meldingen"]], []⟩,
   ⟨[["wijkzorg"]], []⟩]

/-- Match one word (any of its alternative spellings, case-insensitively)
at the head of `l`; return the rest. -/
def eatWordAlts (alts : List String) (l : List Char) : Option (List Char) :=
  alts.findSome? (fun a => eatLitCI a.toList l)

/-- Match `\s+ word \s+ word ...` for a word list; returns the rest. -/
def eatWordsSp : List (List String) → List Char → Option (List Char)
  | [], l => some l
  | w :: ws, l =>
    let sp := l.takeWhile pyIsSpace
    if sp = [] then none
    else do
      let l1 ← eatWordAlts w (l.dropWhile pyIsSpace)
      eatWordsSp ws l1

/-- The `\b` after the final (word-)character of a match: the next
character is absent or a non-word character. -/
def boundaryAfter : List Char → Bool
  | [] => true
  | c :: _ => !pyIsWord c

/-- Attempt a verb pattern at the head of `l` (the leading `\b` has
already been checked by the caller); return the rest after the match.
The optional suffix is tried greedily first and dropped on failure. -/
def tryVerbAt (p : VerbPat) (l : List Char) : Option (List Char) :=
  match p.words with
  | [] => none
  | w :: ws => do
    let l1 ← eatWordAlts w l
    let l2 ← eatWordsSp ws l1
    match (if p.opt = [] then none else eatWordsSp p.opt l2) with
    | some l3 => if boundaryAfter l3 then some l3 else
        if boundaryAfter l2 then some l2 else none
    | none => if boundaryAfter l2 then some l2 else none

/-- `re.search` for a verb pattern: scan left to right; at each
position with a word boundary before it, attempt the pattern; return
the matched text (`m2.group(0)`). -/
def searchVerbAux (p : VerbPat) : Bool → List Char → Option (List Char)
  | _, [] => none
  | prevWord, c :: t =>
    match (if prevWord then none else tryVerbAt p (c :: t)) with
    | some rest => some ((c :: t).take ((c :: t).length - rest.length))
    | none => searchVerbAux p (pyIsWord c) t

def searchVerb (p : VerbPat) (l : List Char) : Option (List Char) :=
  searchVerbAux p false l

/-- `re.sub(r"(?i)^Uitvoeren\s+", "", ph).strip()`: drop a leading
"uitvoeren" (any case) together with the whitespace run after it, then
strip whitespace. -/
def stripUitvoeren (ph : String) : String :=
  let l := ph.toList
  match eatLitCI "uitvoeren".toList l with
  | some rest =>
    if rest.takeWhile pyIsSpace ≠ [] then
      (pyStripWs (rest.dropWhile pyIsSpace)).asString
    else (pyStripWs l).asString
  | none => (pyStripWs l).asString

/-- `_activity_tag_from_text` (`src/app.py` lines 90-124): first the
explicit memo annotation (vocabulary lookup in source order, else the
first three words title-cased), else the first verb pattern that
matches, cleaned and with a leading "Uitvoeren" removed, else `""`. -/
def activity_tag_from_text (text : List Char) : String :=
  match memoSearch text with
  | some cap =>
    let val := clean_text_short (pyLower cap.asString)
    match known.find? (fun k => strHasSub val k) with
    | some k => pyTitle k
    | none =>
      pyTitle ((" ".intercalate (((val.toList.splitOn ' ').filter (fun w => w ≠ [])).take 3
        |>.map List.asString)))
  | none =>
    match verbPats.findSome? (fun p => searchVerb p text) with
    | some g0 => stripUitvoeren (clean_text_short (pyTitle g0.asString))
    | none => ""

/-- A calendar date, as produced by `_parse_flexible_date`. -/
structure Date where
  year : Nat
  month : Nat
  day : Nat
  deriving DecidableEq, Repr

def isLeap (y : Nat) : Bool :=
  y % 4 = 0 && (y % 100 ≠ 0 || y % 400 = 0)

def daysInMonth (y m : Nat) : Nat :=
  if m = 2 then (if isLeap y then 29 else 28)
  else if m = 4 || m = 6 || m = 9 || m = 11 then 30
  else 31

def daysBeforeMonth (y m : Nat) : Nat :=
  (match m with
   | 1 => 0 | 2 => 31 | 3 => 59 | 4 => 90 | 5 => 120 | 6 => 151
   | 7 => 181 | 8 => 212 | 9 => 243 | 10 => 273 | 11 => 304 | _ => 334)
  + (if 3 ≤ m && isLeap y then 1 else 0)

/-- `date.toordinal()`: day 1 is 0001-01-01 of the proleptic Gregorian
calendar. -/
def Date.ordinal (d : Date) : Nat :=
  365 * (d.year - 1) + (d.year - 1) / 4 + (d.year - 1) / 400 - (d.year - 1) / 100
    + daysBeforeMonth d.year d.month + d.day

/-- Inverse of `Date.ordinal` (civil-from-days), used to render the
`%d-%m-%Y` parts of `strftime` on instants. -/
def civilFromOrdinal (n : Nat) : Nat × Nat × Nat :=
  let z := n + 305
  let era := z / 146097
  let doe := z % 146097
  let yoe := (doe - doe / 1460 + doe / 36524 - doe / 146096) / 365
  let y := yoe + era * 400
  let doy := doe - (365 * yoe + yoe / 4 - yoe / 100)
  let mp := (5 * doy + 2) / 153
  let dd := doy - (153 * mp + 2) / 5 + 1
  let mm := if mp < 10 then mp + 3 else mp - 9
  if mm ≤ 2 then (y + 1, mm, dd) else (y, mm, dd)

def pad2 (n : Nat) : String :=
  if n < 10 then "0" ++ toString n else toString n

def pad4 (n : Nat) : String :=
  if n < 10 then "000" ++ toString n
  else if n < 100 then "00" ++ toString n
  else if n < 1000 then "0" ++ toString n
  else toString n

/-- `d.strftime('%d-%m-%Y')` on a block date. -/
def dateDMY (d : Date) : String :=
  pad2 d.day ++ "-" ++ pad2 d.month ++ "-" ++ pad4 d.year

/-- `dt.strftime('%d-%m-%Y %H:%M')` on an instant in minutes. -/
def instantDMYHM (n : Nat) : String :=
  let c := civilFromOrdinal (n / 1440)
  pad2 c.2.2 ++ "-" ++ pad2 c.2.1 ++ "-" ++ pad4 c.1 ++ " "
    ++ pad2 (n % 1440 / 60) ++ ":" ++ pad2 (n % 60)

/-- `_normalize_text` (`src/app.py` lines 55-61): non-breaking space
to space, en/em dash to hyphen (character-wise), then `\r\n` and `\r`
to `\n`. -/
def normalizeChars (l : List Char) : List Char :=
  l.map (fun c => if c = ' ' then ' ' else if c = '–' then '-' else if c = '—' then '-' else c)

def normalizeEol : List Char → List Char
  | [] => []
  | '\r' :: '\n' :: t => '\n' :: normalizeEol t
  | '\r' :: t => '\n' :: normalizeEol t
  | c :: t => c :: normalizeEol t

def normalize_text (l : List Char) : List Char :=
  normalizeEol (normalizeChars l)

/-- A date token found by `re.finditer(DATE_RE, text)`: start and end
offsets, the digit pairs, and the two separators.  The year
alternation `(?:\d{2}|\d{4})` always takes the two-digit branch (the
four-digit branch can only be reached when the two-digit one fails,
which requires fewer than two digits), so every token is eight
characters. -/
structure DateTok where
  pos : Nat
  stop : Nat
  dd : Nat
  mm : Nat
  yy : Nat
  s1 : Char
  s2 : Char
  deriving DecidableEq, Repr

def digitVal (c : Char) : Nat := c.toNat - '0'.toNat

def isSep (c : Char) : Bool := c = '-' || c = '/'

/-- `re.finditer(DATE_RE, text)`: scan left to right, non-overlapping,
leftmost matches first.  The fuel argument only serves structural
termination: every step consumes at least one character, so fuel equal
to the text length never runs out. -/
def scanDatesAux : Nat → Nat → List Char → List DateTok
  | 0, _, _ => []
  | _, _, [] => []
  | fuel + 1, i, d1 :: d2 :: a :: d3 :: d4 :: b :: d5 :: d6 :: rest =>
    if pyIsDigit d1 && pyIsDigit d2 && isSep a && pyIsDigit d3 && pyIsDigit d4
        && isSep b && pyIsDigit d5 && pyIsDigit d6 then
      ⟨i, i + 8, 10 * digitVal d1 + digitVal d2, 10 * digitVal d3 + digitVal d4,
        10 * digitVal d5 + digitVal d6, a, b⟩ :: scanDatesAux fuel (i + 8) rest
    else scanDatesAux fuel (i + 1) (d2 :: a :: d3 :: d4 :: b :: d5 :: d6 :: rest)
  | fuel + 1, i, _ :: t => scanDatesAux fuel (i + 1) t

def scanDates (i : Nat) (l : List Char) : List DateTok :=
  scanDatesAux l.length i l

/-- `_parse_flexible_date` (`src/app.py` lines 63-69) on a token.
`%d-%m-%Y` and `%d/%m/%Y` never match an eight-character token (they
need a four-digit year), so a token parses exactly when its two
separators agree and the day/month/two-digit-year combination is a
valid date (`%y`: 00-68 maps to 20yy, 69-99 to 19yy). -/
def parse_flexible_date (t : DateTok) : Option Date :=
  let y := if t.yy ≤ 68 then 2000 + t.yy else 1900 + t.yy
  if t.s1 = t.s2 && 1 ≤ t.mm && t.mm ≤ 12 && 1 ≤ t.dd && t.dd ≤ daysInMonth y t.mm then
    some ⟨y, t.mm, t.dd⟩
  else none

/-- `chunk[max(0, pos_start - 500):pos_start]`. -/
def ctxBefore (chunk : List Char) (pos_start : Nat) : List Char :=
  (chunk.take pos_start).drop (pos_start - 500)

/-- `chunk[pos_end:min(len(chunk), pos_end + 500)]`. -/
def ctxAfter (chunk : List Char) (pos_end : Nat) : List Char :=
  (chunk.drop pos_end).take 500

/-- The stripped lines of a block (`lines` in
`extract_events_from_text`, line 160). -/
def blockLines (chunk : List Char) : List (List Char) :=
  (chunk.splitOn '\n').map pyStripWs

def countNl (l : List Char) : Nat :=
  (l.filter (fun c => c = '\n')).length

/-- The line scan of `find_activity_near` (lines 171-175): first
non-empty tag among up to eight lines starting at the match's line. -/
def lineScanTag (chunk : List Char) (pos_start : Nat) : String :=
  let lines := blockLines chunk
  let lineStart := countNl (chunk.take pos_start)
  match ((lines.drop lineStart).take 8).findSome?
      (fun ln => let t := activity_tag_from_text ln; if t = "" then none else some t) with
  | some t => t
  | none => ""

/-- `find_activity_near` (`src/app.py` lines 162-176). -/
def find_activity_near (chunk : List Char) (pos_start pos_end : Nat) : String :=
  let tagA := activity_tag_from_text (ctxAfter chunk pos_end)
  if tagA ≠ "" then tagA
  else
    let tagB := activity_tag_from_text (ctxBefore chunk pos_start)
    if tagB ≠ "" then tagB
    else lineScanTag chunk pos_start

/-- A shift event dict as built by `extract_events_from_text`.
`start` and `end_` are naive instants in minutes
(`ordinal * 1440 + minuteOfDay`). -/
structure Event where
  summary : String
  etype : String
  activity : String
  start : Nat
  end_ : Nat
  description : String
  deriving DecidableEq, Repr

/-- One match of `service_re` inside a block: the raw label
(group 1), the two matched times as digit pairs (groups 2 and 3 are
always two-digit/two-digit), and the match offsets inside the chunk. -/
structure RawMatch where
  label : String
  sh : Nat
  sm : Nat
  eh : Nat
  em : Nat
  mstart : Nat
  mend : Nat
  deriving DecidableEq, Repr

/-- `_fix_2400` (`src/app.py` lines 71-72) on an (hour, minute) pair. -/
def fix_2400 (t : Nat × Nat) : Nat × Nat :=
  if t = (24, 0) then (23, 59) else t

/-- `datetime.strptime(t, "%H:%M").time()` as minutes of the day:
defined exactly when the hour is 0-23 and the minute 0-59. -/
def parseHM (t : Nat × Nat) : Option Nat :=
  if t.1 < 24 && t.2 < 60 then some (60 * t.1 + t.2) else none

/-- `f"{h:02d}:{m:02d}"` — the literal time text that the match
contributes to the description (after `_fix_2400`). -/
def timeText (t : Nat × Nat) : String :=
  pad2 t.1 ++ ":" ++ pad2 t.2

/-- The start/end instants of the event builder (`src/app.py` lines
186-192): combine the block date with the times of day; if the end
would be at or before the start, add 24 hours to the end. -/
def combineTimes (ord s t : Nat) : Nat × Nat :=
  let sdt := ord * 1440 + s
  let edt := ord * 1440 + t
  (sdt, if edt ≤ sdt then edt + 1440 else edt)

/-- The description built at `src/app.py` lines 210-215. -/
def buildDescription (kind act : String) (d : Date) (startS endS : String) : String :=
  "Type: " ++ kind
    ++ (if act ≠ "" then "\nActiviteit: " ++ act else "")
    ++ "\nDatum: " ++ dateDMY d
    ++ "\nTijd: " ++ startS ++ " - " ++ endS

/-- The per-match loop body of `extract_events_from_text`
(`src/app.py` lines 178-225) for one block: skip labels containing
"rust", parse the (24:00-fixed) times or skip, compute the instants,
deduplicate on `(start, end, label.upper())` via `seen`, resolve the
service kind and nearby activity, and append the event. -/
def buildBlockGo (dt : Date) (chunk : List Char) :
    List RawMatch → List (Nat × Nat × String) → List Event
  | [], _ => []
  | m :: ms, seen =>
    if containsRustCI m.label then buildBlockGo dt chunk ms seen
    else
      match parseHM (fix_2400 (m.sh, m.sm)), parseHM (fix_2400 (m.eh, m.em)) with
      | some s, some t =>
        let c := combineTimes dt.ordinal s t
        let key := (c.1, c.2, pyUpper m.label)
        if key ∈ seen then buildBlockGo dt chunk ms seen
        else
          let kind := service_title m.label
          let act := find_activity_near chunk m.mstart m.mend
          let summary :=
            if pyLower kind = "consig" then "Consig"
            else if act ≠ "" then act else "Dienst"
          { summary := summary, etype := kind, activity := act,
            start := c.1, end_ := c.2,
            description := buildDescription kind act dt
              (timeText (fix_2400 (m.sh, m.sm))) (timeText (fix_2400 (m.eh, m.em))) }
            :: buildBlockGo dt chunk ms (key :: seen)
      | _, _ => buildBlockGo dt chunk ms seen

def buildBlock (dt : Date) (chunk : List Char) (ms : List RawMatch) : List Event :=
  buildBlockGo dt chunk ms []

/-- The per-token block loop of `extract_events_from_text` (`src/app.py`
lines 151-226).  Each block's chunk runs from the token's end to the
next token's start (or the text's end); an unparseable token only
skips that block.  The service matcher is a parameter `sf`: it stands
for `service_re.finditer(chunk)` and may be instantiated with any
match list, covering every list the pattern can produce. -/
def extractBlocks (sf : List Char → List RawMatch) (text : List Char) :
    List DateTok → List Event
  | [] => []
  | tok :: rest =>
    let endIdx := match rest with | next :: _ => next.pos | [] => text.length
    let evs :=
      match parse_flexible_date tok with
      | none => []
      | some dt =>
        let chunk := (text.drop tok.stop).take (endIdx - tok.stop)
        buildBlock dt chunk (sf chunk)
    evs ++ extractBlocks sf text rest

/-- `extract_events_from_text` (`src/app.py` lines 130-226),
parameterized by the service matcher `sf`. -/
def extract_events_from_text (sf : List Char → List RawMatch) (raw : String) :
    List Event :=
  let text := normalize_text raw.toList
  let toks := scanDates 0 text
  if toks = [] then [] else extractBlocks sf text toks

/-- The sort key of `post_process_events`:
`(e["start"], e["end"], e["summary"])`, compared lexicographically as
Python compares tuples. -/
def keyLe (a b : Event) : Prop :=
  a.start < b.start ∨ (a.start = b.start ∧
    (a.end_ < b.end_ ∨ (a.end_ = b.end_ ∧ a.summary ≤ b.summary)))

instance : DecidableRel keyLe := fun a b => by
  unfold keyLe; infer_instance

instance : IsTotal Event keyLe := by
  constructor; intro a b
  rcases Nat.lt_trichotomy a.start b.start with h | h | h
  · exact Or.inl (Or.inl h)
  · rcases Nat.lt_trichotomy a.end_ b.end_ with h2 | h2 | h2
    · exact Or.inl (Or.inr ⟨h, Or.inl h2⟩)
    · rcases le_total a.summary b.summary with h3 | h3
      · exact Or.inl (Or.inr ⟨h, Or.inr ⟨h2, h3⟩⟩)
      · exact Or.inr (Or.inr ⟨h.symm, Or.inr ⟨h2.symm, h3⟩⟩)
    · exact Or.inr (Or.inr ⟨h.symm, Or.inl h2⟩)
  · exact Or.inr (Or.inl h)

instance : IsTrans Event keyLe := by
  constructor; intro a b c hab hbc
  rcases hab with h | ⟨he, h⟩
  · rcases hbc with h2 | ⟨he2, _⟩
    · exact Or.inl (h.trans h2)
    · exact Or.inl (he2 ▸ h)
  · rcases hbc with h2 | ⟨he2, h2⟩
    · exact Or.inl (he ▸ h2)
    · refine Or.inr ⟨he.trans he2, ?_⟩
      rcases h with h | ⟨hf, h⟩
      · rcases h2 with h2 | ⟨hf2, _⟩
        · exact Or.inl (h.trans h2)
        · exact Or.inl (hf2 ▸ h)
      · rcases h2 with h2 | ⟨hf2, h2⟩
        · exact Or.inl (hf ▸ h2)
        · exact Or.inr ⟨hf.trans hf2, h.trans h2⟩

/-- Whether an event's type is the on-call kind
(`e["type"].lower() == "consig"`). -/
def isConsig (e : Event) : Bool :=
  pyLower e.etype = "consig"

/-- The rewritten description of a merged (or first-seen) on-call
event (`src/app.py` lines 256-266). -/
def consigDesc (s e : Nat) : String :=
  "Type: Consig\nPeriode: " ++ instantDMYHM s ++ " → " ++ instantDMYHM e

/-- One step of the on-call merge pass (`src/app.py` lines 244-267).
The accumulator is kept in reverse: `merged[-1]` is the head,
`merged.append` is cons. -/
def mergeStep (acc : List Event) (ev : Event) : List Event :=
  if !isConsig ev then ev :: acc
  else
    match acc with
    | last :: rest =>
      if isConsig last && last.end_ = ev.start then
        { last with end_ := ev.end_, description := consigDesc last.start ev.end_ } :: rest
      else
        { ev with description := consigDesc ev.start ev.end_ } :: last :: rest
    | [] => [{ ev with description := consigDesc ev.start ev.end_ }]

def mergePass (l : List Event) : List Event :=
  (l.foldl mergeStep []).reverse

/-- The full-day artifact test (`src/app.py` lines 277-280): starts at
00:00, ends at a time of day of 23:59 or 00:00, and is of the generic
duty kind. -/
def isFullDay (e : Event) : Bool :=
  e.start % 1440 = 0 && (e.end_ % 1440 = 1439 || e.end_ % 1440 = 0)
    && pyLower e.etype = "dienst"

/-- The calendar day of an event's start (`e["start"].date()`). -/
def dayOf (e : Event) : Nat :=
  e.start / 1440

/-- The days of a list in first-occurrence order — the key order of
the insertion-ordered `defaultdict` `by_day`. -/
def firstDays : List Nat → List Nat
  | [] => []
  | d :: ds => d :: (firstDays ds).filter (fun x => x ≠ d)

/-- `by_day[d]`: the events of one day, in list order. -/
def byDay (l : List Event) (d : Nat) : List Event :=
  l.filter (fun e => dayOf e = d)

/-- The per-day keep rule (`src/app.py` lines 275-286): if full-day
generic-duty artifacts coexist with other events that day, drop the
artifacts (`e not in all_day` under Python's structural equality),
else keep the whole day. -/
def keepOfDay (de : List Event) : List Event :=
  let allDay := de.filter isFullDay
  if allDay ≠ [] && de.length > allDay.length then
    de.filter (fun e => e ∉ allDay)
  else de

/-- Step 3 of `post_process_events` (`src/app.py` lines 269-286). -/
def removeFullDay (l : List Event) : List Event :=
  (firstDays (l.map dayOf)).flatMap (fun d => keepOfDay (byDay l d))

/-- `post_process_events` (`src/app.py` lines 236-290): sort, merge
adjacent on-call events, remove full-day artifacts, final sort. -/
def post_process_events (events : List Event) : List Event :=
  if events = [] then events
  else
    let sorted := List.insertionSort keyLe events
    let merged := mergePass sorted
    let cleaned := removeFullDay merged
    List.insertionSort keyLe cleaned

/-- The dedup key that `extract_events_from_text` line 194 computes for
a match, when the match produces one at all: `none` when the raw label
contains "rust" or a time fails to parse, otherwise
`(start, end, label.upper())` (ISO strings of the instants are
injective, so the instants themselves serve as the key). -/
def matchKey (dt : Date) (m : RawMatch) : Option (Nat × Nat × String) :=
  if containsRustCI m.label then none
  else
    match parseHM (fix_2400 (m.sh, m.sm)), parseHM (fix_2400 (m.eh, m.em)) with
    | some s, some t =>
      let c := combineTimes dt.ordinal s t
      some (c.1, c.2, pyUpper m.label)
    | _, _ => none

/-- Keep, per dedup key, only the first match carrying it (keyless
matches are kept; they never produce events). -/
def keepFirstByKey (dt : Date) : List RawMatch → List (Nat × Nat × String) → List RawMatch
  | [], _ => []
  | m :: ms, seen =>
    match matchKey dt m with
    | none => m :: keepFirstByKey dt ms seen
    | some k =>
      if k ∈ seen then keepFirstByKey dt ms seen
      else m :: keepFirstByKey dt ms (k :: seen)

/-- A block text whose service match sits at offsets 0-6: both bounded
context windows are tag-free (the duty verb on the third line lies
beyond the 500-character after-context), so only the line scan can
find the tag. -/
def lineScanBlock : List Char :=
  ("DIENST\n" ++ (List.replicate 500 'x').asString ++ "\nsurveilleren").toList

/-! ## Theorems -/

theorem parseHM_lt_1440 {t : Nat × Nat} {s : Nat} (h : parseHM t = some s) : s < 1440 := by
  unfold parseHM at h
  split at h
  · rename_i hc
    simp only [Bool.and_eq_true, decide_eq_true_eq] at hc
    cases h
    omega
  · cases h

theorem combineTimes_bounds {ord s t : Nat} (hs : s < 1440) (ht : t < 1440) :
    (combineTimes ord s t).1 < (combineTimes ord s t).2 ∧
    (combineTimes ord s t).2 ≤ (combineTimes ord s t).1 + 1440 := by
  unfold combineTimes
  dsimp only
  split <;> omega

theorem buildBlockGo_mem_bounds (dt : Date) (chunk : List Char) :
    ∀ (ms : List RawMatch) (seen : List (Nat × Nat × String)) (e : Event),
      e ∈ buildBlockGo dt chunk ms seen → e.start < e.end_ ∧ e.end_ ≤ e.start + 1440 := by
  intro ms
  induction ms with
  | nil => intro seen e h; simp [buildBlockGo] at h
  | cons m ms ih =>
    intro seen e h
    unfold buildBlockGo at h
    split at h
    · exact ih _ _ h
    · dsimp only at h
      split at h
      · rename_i s t hs ht
        split at h
        · exact ih _ _ h
        · rcases List.mem_cons.mp h with he | hm
          · subst he
            exact combineTimes_bounds (parseHM_lt_1440 hs) (parseHM_lt_1440 ht)
          · exact ih _ _ hm
      · exact ih _ _ h

theorem extract_mem_bounds (sf : List Char → List RawMatch) (raw : String) :
    ∀ e ∈ extract_events_from_text sf raw, e.start < e.end_ ∧ e.end_ ≤ e.start + 1440 := by
  intro e he
  unfold extract_events_from_text at he
  dsimp only at he
  split at he
  · simp at he
  · revert he
    generalize scanDates 0 (normalize_text raw.toList) = toks
    generalize normalize_text raw.toList = text
    induction toks with
    | nil => intro he; simp [extractBlocks] at he
    | cons tok rest ih =>
      intro he
      unfold extractBlocks at he
      dsimp only at he
      rcases List.mem_append.mp he with hl | hr
      · revert hl
        split
        · intro hl; simp at hl
        · intro hl; exact buildBlockGo_mem_bounds _ _ _ _ _ hl
      · exact ih hr

/-- C1: every event built by the extraction core has its end instant
strictly after its start instant; when the end time of day is at or
before the start time of day, 24 hours (1440 minutes) are added to
the end; and a match with start 22:00 and end 06:00 in the block of
date D yields an event from D 22:00 to (D+1) 06:00.  The service
matcher is universally quantified, covering every match list the
service pattern can produce on any input text. -/
theorem c1_end_after_start :
    (∀ (sf : List Char → List RawMatch) (raw : String),
      ∀ e ∈ extract_events_from_text sf raw, e.start < e.end_) ∧
    (∀ ord s t : Nat, t ≤ s →
      combineTimes ord s t = (ord * 1440 + s, ord * 1440 + t + 1440)) ∧
    (∀ (dt : Date) (chunk : List Char) (ps pe : Nat),
      (buildBlock dt chunk [⟨"DIENST", 22, 0, 6, 0, ps, pe⟩]).map
          (fun e => (e.start, e.end_))
        = [(dt.ordinal * 1440 + 1320, (dt.ordinal + 1) * 1440 + 360)]) := by
  refine ⟨fun sf raw e he => (extract_mem_bounds sf raw e he).1, ?_, ?_⟩
  · intro ord s t h
    unfold combineTimes
    dsimp only
    rw [if_pos (by omega)]
  · intro dt chunk ps pe
    have h1 : containsRustCI "DIENST" = false := by decide
    have h2 : parseHM (fix_2400 (22, 0)) = some 1320 := by decide
    have h3 : parseHM (fix_2400 (6, 0)) = some 360 := by decide
    show (buildBlockGo dt chunk [⟨"DIENST", 22, 0, 6, 0, ps, pe⟩] []).map
        (fun e => (e.start, e.end_)) = _
    simp only [buildBlockGo, h1, h2, h3, Bool.false_eq_true, if_false, combineTimes,
      List.not_mem_nil, if_true, if_false, List.map_cons, List.map_nil]
    rw [if_pos (by omega)]
    simp only [List.cons.injEq, Prod.mk.injEq, and_true, true_and]
    omega

/-- Witness for C1 at a concrete input: a block dated 01-01-2024 with a
22:00-06:00 duty match yields exactly the cross-midnight event, and its
end is after its start. -/
theorem c1_end_after_start_witness :
    (⟨"Dienst", "Dienst", "", 1063997160, 1063997640,
        "Type: Dienst\nDatum: 01-01-2024\nTijd: 22:00 - 06:00"⟩ : Event)
      ∈ extract_events_from_text (fun _ => [⟨"DIENST", 22, 0, 6, 0, 0, 0⟩]) "01-01-24" ∧
    (1063997160 : Nat) < 1063997640 := by
  have hm : (⟨"Dienst", "Dienst", "", 1063997160, 1063997640,
      "Type: Dienst\nDatum: 01-01-2024\nTijd: 22:00 - 06:00"⟩ : Event)
      ∈ extract_events_from_text (fun _ => [⟨"DIENST", 22, 0, 6, 0, 0, 0⟩]) "01-01-24" := by
    decide
  exact ⟨hm, c1_end_after_start.1 _ "01-01-24" _ hm⟩

/-- C10: every event emitted by the extraction core (before any
post-processing) lasts more than zero and at most 24 hours, and the
duration reaches exactly 24 hours precisely when the (24:00-canonicalized)
start and end times of day are equal. -/
theorem c10_duration_at_most_24h :
    (∀ (sf : List Char → List RawMatch) (raw : String),
      ∀ e ∈ extract_events_from_text sf raw,
        0 < e.end_ - e.start ∧ e.end_ - e.start ≤ 1440) ∧
    (∀ ord s t : Nat, s < 1440 → t < 1440 →
      ((combineTimes ord s t).2 - (combineTimes ord s t).1 = 1440 ↔ s = t)) := by
  constructor
  · intro sf raw e he
    have h := extract_mem_bounds sf raw e he
    omega
  · intro ord s t hs ht
    unfold combineTimes
    dsimp only
    split <;> omega

/-- Witness for C10: the concrete cross-midnight event of length eight
hours satisfies the duration bounds, and a 22:00-22:00 match spans
exactly 24 hours. -/
theorem c10_duration_at_most_24h_witness :
    (0 < (1063997640 : Nat) - 1063997160 ∧ (1063997640 : Nat) - 1063997160 ≤ 1440) ∧
    ((combineTimes 738886 1320 1320).2 - (combineTimes 738886 1320 1320).1 = 1440 ↔
      (1320 : Nat) = 1320) := by
  have hm : (⟨"Dienst", "Dienst", "", 1063997160, 1063997640,
      "Type: Dienst\nDatum: 01-01-2024\nTijd: 22:00 - 06:00"⟩ : Event)
      ∈ extract_events_from_text (fun _ => [⟨"DIENST", 22, 0, 6, 0, 0, 0⟩]) "01-01-24" := by
    decide
  exact ⟨c10_duration_at_most_24h.1 _ "01-01-24" _ hm,
    c10_duration_at_most_24h.2 738886 1320 1320 (by omega) (by omega)⟩

/-- C8: the extraction core is total over arbitrary text input — every
function of the embedding is a total Lean function, so normalization,
date segmentation, event building and post-processing return a value
on every input — and the empty input string yields the empty event
list (for every service matcher), as does post-processing an empty
list. -/
theorem c8_total_and_empty_input :
    (∀ sf : List Char → List RawMatch, extract_events_from_text sf "" = []) ∧
    post_process_events [] = [] :=
  ⟨fun _ => rfl, rfl⟩

theorem buildBlockGo_filter_rust (dt : Date) (chunk : List Char) :
    ∀ (ms : List RawMatch) (seen : List (Nat × Nat × String)),
      buildBlockGo dt chunk ms seen
        = buildBlockGo dt chunk (ms.filter (fun m => !containsRustCI m.label)) seen := by
  intro ms
  induction ms with
  | nil => intro seen; rfl
  | cons m ms ih =>
    intro seen
    rw [List.filter_cons]
    by_cases hr : containsRustCI m.label
    · simp only [hr, Bool.not_true, Bool.false_eq_true, if_false]
      rw [buildBlockGo]
      simp only [hr, if_true]
      exact ih seen
    · have hr' : containsRustCI m.label = false := Bool.not_eq_true _ ▸ hr
      simp only [hr', Bool.not_false, if_true]
      rw [buildBlockGo, buildBlockGo]
      simp only [hr', Bool.false_eq_true, if_false]
      rcases hs : parseHM (fix_2400 (m.sh, m.sm)) with _ | s
        <;> rcases ht : parseHM (fix_2400 (m.eh, m.em)) with _ | t
        <;> simp only [hs, ht]
      · exact ih seen
      · exact ih seen
      · exact ih seen
      · split
        · exact ih seen
        · rw [ih ((((combineTimes dt.ordinal s t).1, (combineTimes dt.ordinal s t).2,
            pyUpper m.label)) :: seen)]

/-- C9: a matched service entry whose raw label contains the letter
sequence "rust" in any letter case, anywhere in the label, never
becomes an event: the block's events are unchanged if such matches are
filtered out beforehand, and a concrete "RUSTIGE DIENST" match (a
duty-like label merely containing "rust") produces no event. -/
theorem c9_rust_matches_skipped :
    (∀ (dt : Date) (chunk : List Char) (ms : List RawMatch),
      buildBlock dt chunk ms
        = buildBlock dt chunk (ms.filter (fun m => !containsRustCI m.label))) ∧
    buildBlock ⟨2024, 1, 1⟩ [] [⟨"RUSTIGE DIENST", 8, 0, 16, 0, 0, 0⟩] = [] :=
  ⟨fun dt chunk ms => buildBlockGo_filter_rust dt chunk ms [], by decide⟩

/-- Counterexample to C2 as stated: in one block dated 2024-01-01, a
CONSIG match and a DIENST match with the identical time range 08:00 to
16:00 both become events, because the dedup key also contains the
uppercased raw label; the two retained events share the same
(start, end) instant pair. -/
theorem c2_counterexample :
    ¬ List.Pairwise (fun a b => (a.start, a.end_) ≠ (b.start, b.end_))
        (buildBlock ⟨2024, 1, 1⟩ []
          [⟨"CONSIG", 8, 0, 16, 0, 0, 0⟩, ⟨"DIENST", 8, 0, 16, 0, 0, 0⟩]) := by
  decide

theorem buildBlockGo_keepFirst (dt : Date) (chunk : List Char) :
    ∀ (ms : List RawMatch) (seen : List (Nat × Nat × String)),
      buildBlockGo dt chunk ms seen
        = buildBlockGo dt chunk (keepFirstByKey dt ms seen) seen := by
  intro ms
  induction ms with
  | nil => intro seen; rfl
  | cons m ms ih =>
    intro seen
    unfold keepFirstByKey
    cases hk : matchKey dt m with
    | none =>
      unfold matchKey at hk
      rw [buildBlockGo, buildBlockGo]
      split at hk
      · rename_i hr
        simp only [hr, if_true]
        exact ih seen
      · rename_i hr
        have hr' : containsRustCI m.label = false := Bool.not_eq_true _ ▸ hr
        simp only [hr', Bool.false_eq_true, if_false]
        rcases hs : parseHM (fix_2400 (m.sh, m.sm)) with _ | s
          <;> rcases ht : parseHM (fix_2400 (m.eh, m.em)) with _ | t
          <;> simp only [hs, ht] at hk ⊢
        · exact ih seen
        · exact ih seen
        · exact ih seen
        · exact absurd hk (by simp)
    | some k =>
      unfold matchKey at hk
      split at hk
      · exact absurd hk (by simp)
      · rename_i hr
        have hr' : containsRustCI m.label = false := Bool.not_eq_true _ ▸ hr
        rcases hs : parseHM (fix_2400 (m.sh, m.sm)) with _ | s
        · simp [hs] at hk
        rcases ht : parseHM (fix_2400 (m.eh, m.em)) with _ | t
        · simp [hs, ht] at hk
        simp only [hs, ht, Option.some.injEq] at hk
        subst hk
        dsimp only
        by_cases hmem :
            ((combineTimes dt.ordinal s t).1, (combineTimes dt.ordinal s t).2,
              pyUpper m.label) ∈ seen
        · rw [if_pos hmem, buildBlockGo]
          simp only [hr', Bool.false_eq_true, if_false, hs, ht]
          rw [if_pos hmem]
          exact ih seen
        · rw [if_neg hmem, buildBlockGo, buildBlockGo]
          simp only [hr', Bool.false_eq_true, if_false, hs, ht]
          rw [if_neg hmem, if_neg hmem]
          rw [ih (((combineTimes dt.ordinal s t).1, (combineTimes dt.ordinal s t).2,
            pyUpper m.label) :: seen)]

theorem keepFirst_keys_distinct (dt : Date) :
    ∀ (ms : List RawMatch) (seen : List (Nat × Nat × String)),
      List.Pairwise (fun a b => a ≠ b)
        ((keepFirstByKey dt ms seen).filterMap (matchKey dt)) ∧
      ∀ k ∈ (keepFirstByKey dt ms seen).filterMap (matchKey dt), k ∉ seen := by
  intro ms
  induction ms with
  | nil =>
    intro seen
    exact ⟨by simp [keepFirstByKey], by simp [keepFirstByKey]⟩
  | cons m ms ih =>
    intro seen
    unfold keepFirstByKey
    cases hk : matchKey dt m with
    | none =>
      dsimp only
      rw [List.filterMap_cons_none hk]
      exact ih seen
    | some k =>
      dsimp only
      by_cases hmem : k ∈ seen
      · rw [if_pos hmem]
        exact ih seen
      · rw [if_neg hmem, List.filterMap_cons_some hk]
        have h := ih (k :: seen)
        constructor
        · exact List.pairwise_cons.mpr
            ⟨fun b hb => fun hkb => (h.2 b hb) (hkb ▸ List.mem_cons_self k seen), h.1⟩
        · intro k' hk'
          rcases List.mem_cons.mp hk' with rfl | hk'
          · exact hmem
          · exact fun hin => (h.2 k' hk') (List.mem_cons_of_mem _ hin)

/-- C2 corrected: the Event Builder's within-block dedup key is the
triple (start instant, end instant, uppercased raw label), not the
(start, end) pair alone.  Dropping every later match that repeats an
earlier match's key leaves the block's events unchanged (first
occurrence wins), and the retained matches carry pairwise-distinct
keys. -/
theorem c2_dedup_first_by_key :
    ∀ (dt : Date) (chunk : List Char) (ms : List RawMatch),
      buildBlock dt chunk ms = buildBlock dt chunk (keepFirstByKey dt ms []) ∧
      List.Pairwise (fun a b => a ≠ b)
        ((keepFirstByKey dt ms []).filterMap (matchKey dt)) :=
  fun dt chunk ms =>
    ⟨buildBlockGo_keepFirst dt chunk ms [], (keepFirst_keys_distinct dt ms []).1⟩

/-- Counterexample to C6 as stated: in the block text
"Memo: Activiteit: trainen\nDIENST 08:00 - 16:00 surveilleren" with
the service match at offsets 26-46, the after-context holds no
explicit annotation but does hold the duty verb "surveilleren", while
the before-context holds the explicit annotation "trainen"; the code
resolves "Surveilleren", not the before-context annotation "Trainen"
that the claimed resolution order would give. -/
theorem c6_counterexample :
    memoSearch (ctxAfter "Memo: Activiteit: trainen\nDIENST 08:00 - 16:00 surveilleren".toList 46)
      = none ∧
    activity_tag_from_text
      (ctxBefore "Memo: Activiteit: trainen\nDIENST 08:00 - 16:00 surveilleren".toList 26)
      = "Trainen" ∧
    find_activity_near "Memo: Activiteit: trainen\nDIENST 08:00 - 16:00 surveilleren".toList 26 46
      = "Surveilleren" ∧
    ("Surveilleren" : String) ≠ "Trainen" := by
  refine ⟨by decide, by decide, by decide, by decide⟩

theorem findSome?_first_hit {α β : Type} (f : α → Option β)
    (l1 : List α) (a : α) (l2 : List α) (b : β)
    (h1 : ∀ x ∈ l1, f x = none) (h2 : f a = some b) :
    (l1 ++ a :: l2).findSome? f = some b := by
  rw [List.findSome?_append, List.findSome?_eq_none_iff.mpr h1, List.findSome?_cons, h2]
  rfl

/-- C6 corrected: the resolver applies the full annotation-then-verb
tagger to the after-context first, then to the before-context, then
line by line to at most eight lines from the match's line on; the
first non-empty line tag is returned when both context tags are
empty, and the result is the empty tag (not an error) when every
stage is empty.  (A duty verb found in the after-context therefore
outranks an explicit annotation in the before-context, contrary to
the order the claim states.) -/
theorem c6_resolution_order :
    ∀ (chunk : List Char) (ps pe : Nat),
      (activity_tag_from_text (ctxAfter chunk pe) ≠ "" →
        find_activity_near chunk ps pe = activity_tag_from_text (ctxAfter chunk pe)) ∧
      (activity_tag_from_text (ctxAfter chunk pe) = "" →
        activity_tag_from_text (ctxBefore chunk ps) ≠ "" →
        find_activity_near chunk ps pe = activity_tag_from_text (ctxBefore chunk ps)) ∧
      (activity_tag_from_text (ctxAfter chunk pe) = "" →
        activity_tag_from_text (ctxBefore chunk ps) = "" →
        ∀ (l1 : List (List Char)) (ln : List Char) (l2 : List (List Char)),
          ((blockLines chunk).drop (countNl (chunk.take ps))).take 8 = l1 ++ ln :: l2 →
          (∀ x ∈ l1, activity_tag_from_text x = "") →
          activity_tag_from_text ln ≠ "" →
          find_activity_near chunk ps pe = activity_tag_from_text ln) ∧
      (activity_tag_from_text (ctxAfter chunk pe) = "" →
        activity_tag_from_text (ctxBefore chunk ps) = "" →
        (∀ ln ∈ ((blockLines chunk).drop (countNl (chunk.take ps))).take 8,
          activity_tag_from_text ln = "") →
        find_activity_near chunk ps pe = "") := by
  intro chunk ps pe
  refine ⟨?_, ?_, ?_, ?_⟩
  · intro h
    unfold find_activity_near
    rw [if_pos h]
  · intro h1 h2
    unfold find_activity_near
    rw [if_neg (fun hne => hne h1), if_pos h2]
  · intro h1 h2 l1 ln l2 hw hnil hne
    unfold find_activity_near
    rw [if_neg (fun hne' => hne' h1), if_neg (fun hne' => hne' h2)]
    unfold lineScanTag
    dsimp only
    have hf1 : ∀ x ∈ l1,
        (fun line => let t := activity_tag_from_text line;
          if t = "" then none else some t) x = none := by
      intro x hx
      dsimp only
      rw [hnil x hx]
      rfl
    have hf2 : (fun line => let t := activity_tag_from_text line;
        if t = "" then none else some t) ln = some (activity_tag_from_text ln) := by
      dsimp only
      rw [if_neg hne]
    rw [hw, findSome?_first_hit _ l1 ln l2 _ hf1 hf2]
  · intro h1 h2 h3
    unfold find_activity_near
    rw [if_neg (fun hne => hne h1), if_neg (fun hne => hne h2)]
    unfold lineScanTag
    dsimp only
    have hnone : List.findSome?
        (fun ln => let t := activity_tag_from_text ln; if t = "" then none else some t)
        (((blockLines chunk).drop (countNl (chunk.take ps))).take 8) = none := by
      rw [List.findSome?_eq_none_iff]
      intro ln hln
      dsimp only
      rw [h3 ln hln]
      rfl
    rw [hnone]

set_option maxRecDepth 40000 in
/-- Witness for C6's resolution order: at the counterexample block the
non-empty after-context tag is the resolved result, and at
`lineScanBlock` (both context tags empty, duty verb on the third
scanned line) the line scan returns that line's tag. -/
theorem c6_resolution_order_witness :
    (activity_tag_from_text
        (ctxAfter "Memo: Activiteit: trainen\nDIENST 08:00 - 16:00 surveilleren".toList 46)
      ≠ "" ∧
    find_activity_near "Memo: Activiteit: trainen\nDIENST 08:00 - 16:00 surveilleren".toList 26 46
      = activity_tag_from_text
          (ctxAfter "Memo: Activiteit: trainen\nDIENST 08:00 - 16:00 surveilleren".toList 46)) ∧
    (activity_tag_from_text (ctxAfter lineScanBlock 6) = "" ∧
    activity_tag_from_text (ctxBefore lineScanBlock 0) = "" ∧
    ((blockLines lineScanBlock).drop (countNl (lineScanBlock.take 0))).take 8
      = ["DIENST".toList, List.replicate 500 'x'] ++ "surveilleren".toList :: [] ∧
    (∀ x ∈ [("DIENST".toList : List Char), List.replicate 500 'x'],
      activity_tag_from_text x = "") ∧
    activity_tag_from_text "surveilleren".toList ≠ "" ∧
    find_activity_near lineScanBlock 0 6
      = activity_tag_from_text "surveilleren".toList) :=
  ⟨⟨by decide,
    (c6_resolution_order "Memo: Activiteit: trainen\nDIENST 08:00 - 16:00 surveilleren".toList
      26 46).1 (by decide)⟩,
   by decide, by decide, by decide, by decide, by decide,
    (c6_resolution_order lineScanBlock 0 6).2.2.1 (by decide) (by decide)
      ["DIENST".toList, List.replicate 500 'x'] "surveilleren".toList []
      (by decide) (by decide) (by decide)⟩

/-- Counterexample to C7 as stated: the annotation value
"wijkzorg achterwacht" contains the vocabulary term "achterwacht",
which is strictly longer than "wijkzorg", yet the resolver returns
"Wijkzorg" because the vocabulary is scanned in fixed list order, not
longest-substring-first. -/
theorem c7_counterexample :
    memoSearch "Memo: Activiteit: wijkzorg achterwacht".toList
      = some "wijkzorg achterwacht".toList ∧
    strHasSub (clean_text_short (pyLower "wijkzorg achterwacht")) "achterwacht" = true ∧
    ("wijkzorg" : String).length < ("achterwacht" : String).length ∧
    activity_tag_from_text "Memo: Activiteit: wijkzorg achterwacht".toList = "Wijkzorg" ∧
    ("Wijkzorg" : String) ≠ pyTitle "achterwacht" := by
  refine ⟨by decide, by decide, by decide, by decide, by decide⟩

/-- C7 corrected: the captured annotation value is trimmed,
whitespace-collapsed and length-capped, then matched against the
vocabulary in fixed list order (first listed substring hit wins, not
the longest); in particular, when the cleaned value exactly equals a
vocabulary term, the resolved tag is that term, title-cased. -/
theorem c7_exact_vocab_match :
    ∀ (text cap : List Char) (k : String),
      memoSearch text = some cap →
      k ∈ known →
      clean_text_short (pyLower cap.asString) = k →
      activity_tag_from_text text = pyTitle k := by
  intro text cap k hm hk hv
  unfold activity_tag_from_text
  rw [hm]
  dsimp only
  rw [hv]
  fin_cases hk <;> decide

/-- Witness for C7's exact-match clause: the annotation "trainen"
equals a vocabulary term and resolves to "Trainen". -/
theorem c7_exact_vocab_match_witness :
    memoSearch "Memo: Activiteit: trainen".toList = some "trainen".toList ∧
    ("trainen" : String) ∈ known ∧
    clean_text_short (pyLower ("trainen".toList).asString) = "trainen" ∧
    activity_tag_from_text "Memo: Activiteit: trainen".toList = pyTitle "trainen" :=
  ⟨by decide, by decide, by decide,
    c7_exact_vocab_match "Memo: Activiteit: trainen".toList "trainen".toList "trainen"
      (by decide) (by decide) (by decide)⟩

theorem chain_mergeStep {acc : List Event} {ev : Event}
    (h : acc.Chain' (fun a b => ¬(isConsig b ∧ isConsig a ∧ b.end_ = a.start))) :
    (mergeStep acc ev).Chain' (fun a b => ¬(isConsig b ∧ isConsig a ∧ b.end_ = a.start)) := by
  unfold mergeStep
  split
  · rename_i hnc
    cases acc with
    | nil => simp
    | cons last rest =>
      refine List.chain'_cons.mpr ⟨?_, h⟩
      rintro ⟨-, h2, -⟩
      simp only [Bool.not_eq_true', isConsig] at hnc h2
      rw [hnc] at h2
      cases h2
  · split
    · rename_i last rest
      split
      · cases rest with
        | nil => simp
        | cons r rs =>
          have h' := List.chain'_cons.mp h
          refine List.chain'_cons.mpr ⟨?_, h'.2⟩
          rintro ⟨hr1, hr2, hr3⟩
          exact h'.1 ⟨hr1, hr2, hr3⟩
      · rename_i hcond
        refine List.chain'_cons.mpr ⟨?_, h⟩
        rintro ⟨h1, h2, h3⟩
        apply hcond
        simp only [Bool.and_eq_true, decide_eq_true_eq]
        exact ⟨h1, h3⟩
    · simp

theorem foldl_mergeStep_chain (l : List Event) :
    ∀ acc : List Event,
      acc.Chain' (fun a b => ¬(isConsig b ∧ isConsig a ∧ b.end_ = a.start)) →
      (l.foldl mergeStep acc).Chain' (fun a b => ¬(isConsig b ∧ isConsig a ∧ b.end_ = a.start)) := by
  induction l with
  | nil => exact fun acc h => h
  | cons ev l ih =>
    intro acc h
    exact ih (mergeStep acc ev) (chain_mergeStep h)

theorem mergePass_chain (l : List Event) :
    (mergePass l).Chain' (fun a b => ¬(isConsig a ∧ isConsig b ∧ a.end_ = b.start)) := by
  unfold mergePass
  rw [List.chain'_reverse]
  exact foldl_mergeStep_chain l [] (by simp)

/-- C4: the single forward merge pass leaves no two consecutive
on-call events in which the previous one's end equals the current
one's start (every such pair, including chains, gets merged), and on
the concrete pair OnCall 2024-01-01 18:00 to 2024-01-02 06:00 followed
by OnCall 2024-01-02 06:00 to 2024-01-02 18:00 the Post-Processor
returns the single merged OnCall event 2024-01-01 18:00 to 2024-01-02
18:00 with its description rewritten to the period form. -/
theorem c4_oncall_merge :
    (∀ l : List Event,
      (mergePass l).Chain' (fun a b => ¬(isConsig a ∧ isConsig b ∧ a.end_ = b.start))) ∧
    post_process_events
        [⟨"Consig", "Consig", "", 1063996920, 1063997640, "d1"⟩,
         ⟨"Consig", "Consig", "", 1063997640, 1063998360, "d2"⟩]
      = [⟨"Consig", "Consig", "", 1063996920, 1063998360,
          "Type: Consig\nPeriode: 01-01-2024 18:00 → 02-01-2024 18:00"⟩] :=
  ⟨mergePass_chain, by decide⟩

theorem mem_firstDays {ds : List Nat} {x : Nat} : x ∈ firstDays ds ↔ x ∈ ds := by
  induction ds with
  | nil => simp [firstDays]
  | cons d ds ih =>
    simp only [firstDays, List.mem_cons, List.mem_filter]
    constructor
    · rintro (rfl | ⟨hx, -⟩)
      · exact Or.inl rfl
      · exact Or.inr (ih.mp hx)
    · rintro (rfl | hx)
      · exact Or.inl rfl
      · by_cases hxd : x = d
        · exact Or.inl hxd
        · exact Or.inr ⟨ih.mpr hx, by simpa using hxd⟩

theorem nodup_firstDays (ds : List Nat) : (firstDays ds).Nodup := by
  induction ds with
  | nil => simp [firstDays]
  | cons d ds ih =>
    simp only [firstDays]
    refine List.nodup_cons.mpr ⟨?_, List.Nodup.filter _ ih⟩
    intro hd
    have := (List.mem_filter.mp hd).2
    simp at this

theorem keepOfDay_subset {de : List Event} {e : Event} (h : e ∈ keepOfDay de) : e ∈ de := by
  unfold keepOfDay at h
  dsimp only at h
  split at h
  · exact (List.mem_filter.mp h).1
  · exact h

theorem mem_byDay {l : List Event} {d : Nat} {e : Event} (h : e ∈ byDay l d) :
    e ∈ l ∧ dayOf e = d := by
  have := List.mem_filter.mp h
  exact ⟨this.1, by simpa using this.2⟩

theorem filter_flatMap_days (l : List Event) (d : Nat) :
    ∀ ds : List Nat, ds.Nodup →
      ((ds.flatMap (fun x => keepOfDay (byDay l x))).filter (fun e => dayOf e = d))
        = if d ∈ ds then keepOfDay (byDay l d) else [] := by
  intro ds
  induction ds with
  | nil => intro _; simp
  | cons d' ds ih =>
    intro hnd
    have hnd' := List.nodup_cons.mp hnd
    rw [List.flatMap_cons, List.filter_append, ih hnd'.2]
    by_cases hdd : d' = d
    · subst hdd
      rw [if_neg hnd'.1, if_pos (List.mem_cons_self _ _), List.append_nil]
      apply List.filter_eq_self.mpr
      intro e he
      simpa using (mem_byDay (keepOfDay_subset he)).2
    · have h0 : (keepOfDay (byDay l d')).filter (fun e => dayOf e = d) = [] := by
        apply List.filter_eq_nil_iff.mpr
        intro e he
        have := (mem_byDay (keepOfDay_subset he)).2
        simp only [decide_eq_true_eq]
        omega
      rw [h0, List.nil_append]
      by_cases hd : d ∈ ds
      · rw [if_pos hd, if_pos (List.mem_cons_of_mem _ hd)]
      · rw [if_neg hd, if_neg (fun hc => by
          rcases List.mem_cons.mp hc with rfl | hc
          · exact hdd rfl
          · exact hd hc)]

theorem removeFullDay_filter_day (l : List Event) (d : Nat) :
    (removeFullDay l).filter (fun e => dayOf e = d) = keepOfDay (byDay l d) := by
  unfold removeFullDay
  rw [filter_flatMap_days l d _ (nodup_firstDays _)]
  by_cases hd : d ∈ firstDays (l.map dayOf)
  · rw [if_pos hd]
  · rw [if_neg hd]
    have hnil : byDay l d = [] := by
      apply List.filter_eq_nil_iff.mpr
      intro e he hmem
      apply hd
      apply mem_firstDays.mpr
      apply List.mem_map.mpr
      exact ⟨e, he, by simpa using hmem⟩
    rw [hnil]
    rfl

theorem length_filter_lt_of_exists {p : Event → Bool} {de : List Event} {e : Event}
    (he : e ∈ de) (hp : p e = false) : (de.filter p).length < de.length := by
  induction de with
  | nil => cases he
  | cons a de ih =>
    rcases List.mem_cons.mp he with rfl | he'
    · rw [List.filter_cons, hp]
      have := List.length_filter_le p de
      simpa using Nat.lt_succ_of_le this
    · rw [List.filter_cons]
      split
      · simpa using Nat.succ_lt_succ (ih he')
      · have := ih he'
        have h2 := List.length_filter_le p de
        simp only [List.length_cons]
        omega

theorem keepOfDay_eq (de : List Event) :
    keepOfDay de =
      if de.any isFullDay && de.any (fun e => !isFullDay e) then
        de.filter (fun e => !isFullDay e)
      else de := by
  unfold keepOfDay
  dsimp only
  have hc : (decide (de.filter isFullDay ≠ []) &&
      decide ((de.filter isFullDay).length < de.length))
      = (de.any isFullDay && de.any (fun e => !isFullDay e)) := by
    rcases h1 : de.any isFullDay with _ | _
    · have : de.filter isFullDay = [] := by
        apply List.filter_eq_nil_iff.mpr
        intro e he hfe
        have := List.any_eq_false.mp h1 e he
        simp [hfe] at this
      simp [this]
    · rcases h2 : de.any (fun e => !isFullDay e) with _ | _
      · have hall : de.filter isFullDay = de := by
          apply List.filter_eq_self.mpr
          intro e he
          have := List.any_eq_false.mp h2 e he
          simpa using this
        simp [hall]
      · rcases List.any_eq_true.mp h1 with ⟨e1, he1, hf1⟩
        rcases List.any_eq_true.mp h2 with ⟨e2, he2, hf2⟩
        have hne : de.filter isFullDay ≠ [] := by
          intro hnil
          have := List.filter_eq_nil_iff.mp hnil e1 he1
          exact this hf1
        have hlt : (de.filter isFullDay).length < de.length :=
          length_filter_lt_of_exists he2 (by simpa using hf2)
        simp [hne, hlt]
  rw [hc]
  split
  · apply List.filter_congr
    intro e he
    have hmem : e ∈ de.filter isFullDay ↔ isFullDay e = true := by
      simp [List.mem_filter, he]
    by_cases hfe : isFullDay e
    · simp [hmem, hfe]
    · simp [hmem, hfe]
  · rfl

/-- C5: the Post-Processor's full-day artifact removal groups events by
the start instant's calendar day and, day by day, drops the full-day
generic-duty artifacts (start 00:00, end time of day 23:59 or 00:00)
exactly when at least one other event shares the day, keeping the rest
unchanged; a day consisting only of full-day duty events keeps them.
Concretely, a day holding Duty 00:00-23:59 and Duty 08:00-16:00
retains only the latter, and a day holding only Duty 00:00-23:59
retains it. -/
theorem c5_full_day_artifact_removal :
    (∀ (l : List Event) (d : Nat),
      (removeFullDay l).filter (fun e => dayOf e = d) = keepOfDay (byDay l d)) ∧
    (∀ de : List Event,
      keepOfDay de =
        if de.any isFullDay && de.any (fun e => !isFullDay e) then
          de.filter (fun e => !isFullDay e)
        else de) ∧
    post_process_events
        [⟨"Dienst", "Dienst", "", 1063995840, 1063997279, "f"⟩,
         ⟨"Dienst", "Dienst", "", 1063996320, 1063996800, "s"⟩]
      = [⟨"Dienst", "Dienst", "", 1063996320, 1063996800, "s"⟩] ∧
    post_process_events [⟨"Dienst", "Dienst", "", 1063995840, 1063997279, "f"⟩]
      = [⟨"Dienst", "Dienst", "", 1063995840, 1063997279, "f"⟩] :=
  ⟨removeFullDay_filter_day, keepOfDay_eq, by decide, by decide⟩

theorem mergeStep_not_consig {acc : List Event} {ev : Event} (h : isConsig ev = false) :
    mergeStep acc ev = ev :: acc := by
  simp [mergeStep, h]

theorem mergeStep_nil_consig {ev : Event} (h : isConsig ev = true) :
    mergeStep [] ev = [{ ev with description := consigDesc ev.start ev.end_ }] := by
  simp [mergeStep, h]

theorem mergeStep_merge {last : Event} {rest : List Event} {ev : Event}
    (h : isConsig ev = true) (h1 : isConsig last = true) (h2 : last.end_ = ev.start) :
    mergeStep (last :: rest) ev
      = { last with end_ := ev.end_, description := consigDesc last.start ev.end_ } :: rest := by
  simp [mergeStep, h, h1, h2]

theorem mergeStep_no_merge {last : Event} {rest : List Event} {ev : Event}
    (h : isConsig ev = true) (h2 : ¬(isConsig last = true ∧ last.end_ = ev.start)) :
    mergeStep (last :: rest) ev
      = { ev with description := consigDesc ev.start ev.end_ } :: last :: rest := by
  unfold mergeStep
  rw [if_neg (by simp [h])]
  have hcond : (isConsig last && decide (last.end_ = ev.start)) = false := by
    rcases h1 : isConsig last with _ | _
    · rfl
    · rcases h3 : decide (last.end_ = ev.start) with _ | _
      · rfl
      · exact absurd ⟨h1, of_decide_eq_true h3⟩ h2
  simp [hcond]

theorem keyLe_start_le {a b : Event} (h : keyLe a b) : a.start ≤ b.start := by
  rcases h with h | ⟨h, -⟩
  · omega
  · omega

theorem foldl_mergeStep_sorted :
    ∀ (l acc : List Event),
      acc.Pairwise (fun a b => keyLe b a) →
      (∀ e ∈ acc, e.start < e.end_) →
      (∀ e ∈ l, e.start < e.end_) →
      l.Pairwise keyLe →
      (∀ q ∈ l, ∀ a ∈ acc.head?, keyLe a q) →
      (l.foldl mergeStep acc).Pairwise (fun a b => keyLe b a) ∧
      (∀ e ∈ l.foldl mergeStep acc, e.start < e.end_) := by
  intro l
  induction l with
  | nil =>
    intro acc h1 h2 _ _ _
    exact ⟨h1, h2⟩
  | cons ev l ih =>
    intro acc h1 h2 h3 h4 h5
    have hev_lt : ev.start < ev.end_ := h3 ev (List.mem_cons_self _ _)
    have h4' := List.pairwise_cons.mp h4
    have hacc_le : ∀ b ∈ acc, keyLe b ev := by
      cases acc with
      | nil => intro b hb; cases hb
      | cons a rest =>
        intro b hb
        have ha : keyLe a ev := h5 ev (List.mem_cons_self _ _) a rfl
        rcases List.mem_cons.mp hb with rfl | hb
        · exact ha
        · exact Trans.trans ((List.pairwise_cons.mp h1).1 b hb) ha
    rw [List.foldl_cons]
    rcases hc : isConsig ev with _ | _
    · rw [mergeStep_not_consig hc]
      refine ih (ev :: acc) (List.pairwise_cons.mpr ⟨hacc_le, h1⟩) ?_
        (fun e he => h3 e (List.mem_cons_of_mem _ he)) h4'.2 ?_
      · intro e he
        rcases List.mem_cons.mp he with rfl | he
        · exact hev_lt
        · exact h2 e he
      · intro q hq a ha
        cases ha
        exact h4'.1 q hq
    · cases acc with
      | nil =>
        rw [mergeStep_nil_consig hc]
        refine ih _ (List.pairwise_singleton _ _) ?_
          (fun e he => h3 e (List.mem_cons_of_mem _ he)) h4'.2 ?_
        · intro e he
          rcases List.mem_cons.mp he with rfl | he
          · exact hev_lt
          · cases he
        · intro q hq a ha
          cases ha
          exact h4'.1 q hq
      | cons last rest =>
        have hlast_lt : last.start < last.end_ := h2 last (List.mem_cons_self _ _)
        have h1' := List.pairwise_cons.mp h1
        by_cases hm : isConsig last = true ∧ last.end_ = ev.start
        · rw [mergeStep_merge hc hm.1 hm.2]
          have hkey : keyLe last { last with end_ := ev.end_, description := consigDesc last.start ev.end_ } := by
            refine Or.inr ⟨rfl, Or.inl ?_⟩
            show last.end_ < ev.end_
            omega
          refine ih _ (List.pairwise_cons.mpr ⟨?_, h1'.2⟩) ?_
            (fun e he => h3 e (List.mem_cons_of_mem _ he)) h4'.2 ?_
          · intro b hb
            exact Trans.trans (h1'.1 b hb) hkey
          · intro e he
            rcases List.mem_cons.mp he with rfl | he
            · show last.start < ev.end_
              omega
            · exact h2 e (List.mem_cons_of_mem _ he)
          · intro q hq a ha
            cases ha
            have hq1 : ev.start ≤ q.start := keyLe_start_le (h4'.1 q hq)
            exact Or.inl (by show last.start < q.start; omega)
        · rw [mergeStep_no_merge hc hm]
          refine ih _ (List.pairwise_cons.mpr ⟨?_, h1⟩) ?_
            (fun e he => h3 e (List.mem_cons_of_mem _ he)) h4'.2 ?_
          · intro b hb
            exact hacc_le b hb
          · intro e he
            rcases List.mem_cons.mp he with rfl | he
            · exact hev_lt
            · exact h2 e he
          · intro q hq a ha
            cases ha
            exact h4'.1 q hq

theorem mergePass_sorted {l : List Event} (hp : l.Pairwise keyLe)
    (hlt : ∀ e ∈ l, e.start < e.end_) :
    (mergePass l).Pairwise keyLe ∧ (∀ e ∈ mergePass l, e.start < e.end_) := by
  have h := foldl_mergeStep_sorted l [] List.Pairwise.nil (by simp) hlt hp
    (by intro q hq a ha; cases ha)
  constructor
  · exact List.pairwise_reverse.mpr h.1
  · intro e he
    exact h.2 e (List.mem_reverse.mp he)

theorem foldl_mergeStep_desc :
    ∀ (l acc : List Event),
      (∀ e ∈ acc, isConsig e = true → e.description = consigDesc e.start e.end_) →
      ∀ e ∈ l.foldl mergeStep acc,
        isConsig e = true → e.description = consigDesc e.start e.end_ := by
  intro l
  induction l with
  | nil => exact fun acc h => h
  | cons ev l ih =>
    intro acc hacc
    rw [List.foldl_cons]
    refine ih _ ?_
    rcases hc : isConsig ev with _ | _
    · rw [mergeStep_not_consig hc]
      intro e he
      rcases List.mem_cons.mp he with rfl | he
      · intro hce; rw [hce] at hc; cases hc
      · exact hacc e he
    · cases acc with
      | nil =>
        rw [mergeStep_nil_consig hc]
        intro e he
        rcases List.mem_cons.mp he with rfl | he
        · intro _; rfl
        · cases he
      | cons last rest =>
        by_cases hm : isConsig last = true ∧ last.end_ = ev.start
        · rw [mergeStep_merge hc hm.1 hm.2]
          intro e he
          rcases List.mem_cons.mp he with rfl | he
          · intro _; rfl
          · exact hacc e (List.mem_cons_of_mem _ he)
        · rw [mergeStep_no_merge hc hm]
          intro e he
          rcases List.mem_cons.mp he with rfl | he
          · intro _; rfl
          · exact hacc e he

theorem mergePass_desc {l : List Event} :
    ∀ e ∈ mergePass l, isConsig e = true → e.description = consigDesc e.start e.end_ := by
  intro e he
  exact foldl_mergeStep_desc l [] (by simp) e (List.mem_reverse.mp he)

theorem foldl_mergeStep_noFullDay :
    ∀ (l acc : List Event),
      (∀ e ∈ acc, isFullDay e = false) →
      (∀ e ∈ l, isFullDay e = false) →
      ∀ e ∈ l.foldl mergeStep acc, isFullDay e = false := by
  intro l
  induction l with
  | nil => exact fun acc h _ => h
  | cons ev l ih =>
    intro acc hacc hl
    rw [List.foldl_cons]
    refine ih _ ?_ (fun e he => hl e (List.mem_cons_of_mem _ he))
    have hev := hl ev (List.mem_cons_self _ _)
    rcases hc : isConsig ev with _ | _
    · rw [mergeStep_not_consig hc]
      intro e he
      rcases List.mem_cons.mp he with rfl | he
      · exact hev
      · exact hacc e he
    · cases acc with
      | nil =>
        rw [mergeStep_nil_consig hc]
        intro e he
        rcases List.mem_cons.mp he with rfl | he
        · exact hev
        · cases he
      | cons last rest =>
        by_cases hm : isConsig last = true ∧ last.end_ = ev.start
        · rw [mergeStep_merge hc hm.1 hm.2]
          intro e he
          rcases List.mem_cons.mp he with rfl | he
          · have hcons : pyLower last.etype = "consig" := by
              have := hm.1
              simpa [isConsig] using this
            simp [isFullDay, hcons]
          · exact hacc e (List.mem_cons_of_mem _ he)
        · rw [mergeStep_no_merge hc hm]
          intro e he
          rcases List.mem_cons.mp he with rfl | he
          · exact hev
          · exact hacc e he

theorem mergePass_noFullDay {l : List Event} (hl : ∀ e ∈ l, isFullDay e = false) :
    ∀ e ∈ mergePass l, isFullDay e = false := by
  intro e he
  exact foldl_mergeStep_noFullDay l [] (by simp) hl e (List.mem_reverse.mp he)

theorem foldl_mergeStep_ne_nil :
    ∀ (l acc : List Event), acc ≠ [] ∨ l ≠ [] → l.foldl mergeStep acc ≠ [] := by
  intro l
  induction l with
  | nil =>
    intro acc h
    rcases h with h | h
    · exact h
    · exact absurd rfl h
  | cons ev l ih =>
    intro acc _
    rw [List.foldl_cons]
    refine ih _ (Or.inl ?_)
    rcases hc : isConsig ev with _ | _
    · rw [mergeStep_not_consig hc]; exact List.cons_ne_nil _ _
    · cases acc with
      | nil => rw [mergeStep_nil_consig hc]; exact List.cons_ne_nil _ _
      | cons last rest =>
        by_cases hm : isConsig last = true ∧ last.end_ = ev.start
        · rw [mergeStep_merge hc hm.1 hm.2]; exact List.cons_ne_nil _ _
        · rw [mergeStep_no_merge hc hm]; exact List.cons_ne_nil _ _

theorem event_desc_eta {e : Event} (h : e.description = consigDesc e.start e.end_) :
    { e with description := consigDesc e.start e.end_ } = e := by
  cases e
  dsimp only at h ⊢
  rw [h]

theorem foldl_mergeStep_noop :
    ∀ (l acc : List Event),
      ((acc.reverse ++ l).Chain' (fun a b => ¬(isConsig a ∧ isConsig b ∧ a.end_ = b.start))) →
      (∀ e ∈ l, isConsig e = true → e.description = consigDesc e.start e.end_) →
      l.foldl mergeStep acc = l.reverse ++ acc := by
  intro l
  induction l with
  | nil => intro acc _ _; simp
  | cons ev l ih =>
    intro acc hchain hdesc
    have hstep : mergeStep acc ev = ev :: acc := by
      rcases hc : isConsig ev with _ | _
      · exact mergeStep_not_consig hc
      · cases acc with
        | nil =>
          rw [mergeStep_nil_consig hc,
            event_desc_eta (hdesc ev (List.mem_cons_self _ _) hc)]
        | cons last rest =>
          have hadj : ¬(isConsig last ∧ isConsig ev ∧ last.end_ = ev.start) := by
            have h1 := (List.chain'_append.mp hchain).2.2
            exact h1 last (by rw [List.getLast?_reverse]; rfl) ev rfl
          rw [mergeStep_no_merge hc (fun hcc => hadj ⟨hcc.1, hc, hcc.2⟩),
            event_desc_eta (hdesc ev (List.mem_cons_self _ _) hc)]
    have hchain' : (((ev :: acc).reverse ++ l).Chain'
        (fun a b => ¬(isConsig a ∧ isConsig b ∧ a.end_ = b.start))) := by
      rw [List.reverse_cons, List.append_assoc]
      exact hchain
    rw [List.foldl_cons, hstep,
      ih (ev :: acc) hchain' (fun e he h => hdesc e (List.mem_cons_of_mem _ he) h)]
    simp

theorem mergePass_noop {l : List Event}
    (hc : l.Chain' (fun a b => ¬(isConsig a ∧ isConsig b ∧ a.end_ = b.start)))
    (hd : ∀ e ∈ l, isConsig e = true → e.description = consigDesc e.start e.end_) :
    mergePass l = l := by
  unfold mergePass
  rw [foldl_mergeStep_noop l [] (by simpa using hc) hd]
  simp

theorem filter_ne_firstDays {ds : List Nat} {d0 : Nat} (h : d0 ∉ ds) :
    (firstDays ds).filter (fun x => x ≠ d0) = firstDays ds := by
  apply List.filter_eq_self.mpr
  intro a ha
  have hmem : a ∈ ds := mem_firstDays.mp ha
  simp only [ne_eq, decide_eq_true_eq]
  intro heq
  exact h (heq ▸ hmem)

theorem firstDays_append_const :
    ∀ (ds1 : List Nat) (d0 : Nat) (ds2 : List Nat), ds1 ≠ [] → (∀ x ∈ ds1, x = d0) →
      firstDays (ds1 ++ ds2) = d0 :: (firstDays ds2).filter (fun x => x ≠ d0) := by
  intro ds1
  induction ds1 with
  | nil => intro d0 ds2 h _; exact absurd rfl h
  | cons d ds1 ih =>
    intro d0 ds2 _ hall
    have hd : d = d0 := hall d (List.mem_cons_self _ _)
    subst hd
    cases ds1 with
    | nil => simp [firstDays]
    | cons d' ds1' =>
      rw [List.cons_append, firstDays,
        ih d ds2 (List.cons_ne_nil _ _) (fun x hx => hall x (List.mem_cons_of_mem _ hx))]
      congr 1
      rw [List.filter_cons]
      simp [List.filter_filter]

theorem dropWhile_head?_false {p : Event → Bool} :
    ∀ {l : List Event} {a : Event}, (l.dropWhile p).head? = some a → p a = false := by
  intro l
  induction l with
  | nil => intro a h; cases h
  | cons x t ih =>
    intro a h
    rw [List.dropWhile_cons] at h
    split at h
    · exact ih h
    · rename_i hpx
      simp only [List.head?_cons, Option.some.injEq] at h
      subst h
      exact Bool.eq_false_iff.mpr hpx

theorem flatMapCongr {f g : Nat → List Event} :
    ∀ {ds : List Nat}, (∀ d ∈ ds, f d = g d) → ds.flatMap f = ds.flatMap g := by
  intro ds
  induction ds with
  | nil => intro _; rfl
  | cons d ds ih =>
    intro h
    rw [List.flatMap_cons, List.flatMap_cons, h d (List.mem_cons_self _ _),
      ih (fun x hx => h x (List.mem_cons_of_mem _ hx))]

theorem flatMap_byDay_groups :
    ∀ (n : Nat) (l : List Event), l.length ≤ n →
      l.Pairwise (fun a b => dayOf a ≤ dayOf b) →
      (firstDays (l.map dayOf)).flatMap (fun d => byDay l d) = l := by
  intro n
  induction n with
  | zero =>
    intro l hlen _
    have hnil : l = [] := List.eq_nil_of_length_eq_zero (Nat.le_zero.mp hlen)
    subst hnil
    rfl
  | succ n ih =>
    intro l hlen hp
    cases l with
    | nil => rfl
    | cons e t =>
      have hsplit : (e :: t).takeWhile (fun x => decide (dayOf x = dayOf e))
          ++ (e :: t).dropWhile (fun x => decide (dayOf x = dayOf e)) = e :: t :=
        List.takeWhile_append_dropWhile _ _
      have hrun : ∀ x ∈ (e :: t).takeWhile (fun x => decide (dayOf x = dayOf e)),
          dayOf x = dayOf e :=
        fun x hx => by simpa using List.mem_takeWhile_imp hx
      have hruncons : (e :: t).takeWhile (fun x => decide (dayOf x = dayOf e))
          = e :: t.takeWhile (fun x => decide (dayOf x = dayOf e)) := by
        rw [List.takeWhile_cons_of_pos (by simp)]
      have hl2gt : ∀ x ∈ (e :: t).dropWhile (fun x => decide (dayOf x = dayOf e)),
          dayOf e < dayOf x := by
        rcases hl2 : (e :: t).dropWhile (fun x => decide (dayOf x = dayOf e)) with _ | ⟨h2, t2⟩
        · intro x hx; cases hx
        · have hh2 : decide (dayOf h2 = dayOf e) = false :=
            dropWhile_head?_false (by rw [hl2]; rfl)
          have hh2ne : dayOf h2 ≠ dayOf e := of_decide_eq_false hh2
          have hsub : List.Sublist
              ((e :: t).dropWhile (fun x => decide (dayOf x = dayOf e))) (e :: t) :=
            List.dropWhile_sublist _
          have hh2mem : h2 ∈ e :: t := hsub.subset (by rw [hl2]; exact List.mem_cons_self _ _)
          have hh2gt : dayOf e < dayOf h2 := by
            rcases List.mem_cons.mp hh2mem with heq | hmem
            · exact absurd (heq ▸ rfl) hh2ne
            · have := (List.pairwise_cons.mp hp).1 h2 hmem
              omega
          have hpl2 : List.Pairwise (fun a b => dayOf a ≤ dayOf b) (h2 :: t2) :=
            hl2 ▸ (List.Pairwise.sublist hsub hp)
          intro x hx
          rcases List.mem_cons.mp hx with rfl | hx
          · exact hh2gt
          · have := (List.pairwise_cons.mp hpl2).1 x hx
            omega
      have hmap : (e :: t).map dayOf
          = ((e :: t).takeWhile (fun x => decide (dayOf x = dayOf e))).map dayOf
            ++ ((e :: t).dropWhile (fun x => decide (dayOf x = dayOf e))).map dayOf := by
        rw [← List.map_append, hsplit]
      have hnotin : dayOf e ∉
          ((e :: t).dropWhile (fun x => decide (dayOf x = dayOf e))).map dayOf := by
        intro hd0
        rcases List.mem_map.mp hd0 with ⟨x, hx, hxeq⟩
        have := hl2gt x hx
        omega
      have hfd : firstDays ((e :: t).map dayOf)
          = dayOf e
            :: firstDays (((e :: t).dropWhile (fun x => decide (dayOf x = dayOf e))).map dayOf) := by
        rw [hmap, firstDays_append_const _ (dayOf e) _ ?_ ?_]
        · rw [filter_ne_firstDays hnotin]
        · rw [hruncons]; simp
        · intro y hy
          rcases List.mem_map.mp hy with ⟨x, hx, rfl⟩
          exact hrun x hx
      have hbyday0 : byDay (e :: t) (dayOf e)
          = (e :: t).takeWhile (fun x => decide (dayOf x = dayOf e)) := by
        unfold byDay
        conv_lhs => rw [← hsplit]
        rw [List.filter_append]
        rw [List.filter_eq_self.mpr (fun x hx => by simp [hrun x hx]),
          List.filter_eq_nil_iff.mpr (fun x hx => by
            have := hl2gt x hx
            simp only [decide_eq_true_eq]
            omega),
          List.append_nil]
      have hbyday : ∀ d ∈ firstDays
            (((e :: t).dropWhile (fun x => decide (dayOf x = dayOf e))).map dayOf),
          byDay (e :: t) d
            = byDay ((e :: t).dropWhile (fun x => decide (dayOf x = dayOf e))) d := by
        intro d hd
        have hdgt : dayOf e < d := by
          rcases List.mem_map.mp (mem_firstDays.mp hd) with ⟨x, hx, rfl⟩
          exact hl2gt x hx
        unfold byDay
        conv_lhs => rw [← hsplit]
        rw [List.filter_append,
          List.filter_eq_nil_iff.mpr (fun x hx => by
            have := hrun x hx
            simp only [decide_eq_true_eq]
            omega),
          List.nil_append]
      have hlen2 : ((e :: t).dropWhile (fun x => decide (dayOf x = dayOf e))).length ≤ n := by
        have hle := congrArg List.length hsplit
        rw [List.length_append, hruncons] at hle
        simp only [List.length_cons] at hle hlen
        omega
      have hp2 : ((e :: t).dropWhile (fun x => decide (dayOf x = dayOf e))).Pairwise
          (fun a b => dayOf a ≤ dayOf b) :=
        List.Pairwise.sublist (List.dropWhile_sublist _) hp
      rw [hfd, List.flatMap_cons, hbyday0, flatMapCongr hbyday, ih _ hlen2 hp2]
      exact hsplit

theorem removeFullDay_noop {l : List Event}
    (hfd : ∀ e ∈ l, isFullDay e = false)
    (hp : l.Pairwise (fun a b => dayOf a ≤ dayOf b)) :
    removeFullDay l = l := by
  unfold removeFullDay
  have hkeep : ∀ d ∈ firstDays (l.map dayOf), keepOfDay (byDay l d) = byDay l d := by
    intro d _
    rw [keepOfDay_eq]
    rw [if_neg ?_]
    intro hcond
    rw [Bool.and_eq_true] at hcond
    rcases List.any_eq_true.mp hcond.1 with ⟨x, hx, hfx⟩
    have := hfd x (mem_byDay hx).1
    rw [this] at hfx
    cases hfx
  rw [flatMapCongr hkeep]
  exact flatMap_byDay_groups l.length l (Nat.le_refl _) hp

/-- Counterexample to C3 as stated: with on-call events A (2024-01-01
18:00 to 2024-01-02 06:00) and B (2024-01-02 06:00 to 18:00) and a
full-day duty artifact F (2024-01-02 00:00 to 23:59), the first run
drops F (other events share its day), leaving A and B adjacent; the
second run then merges A and B, so re-running the Post-Processor on
its own output changes it. -/
theorem c3_counterexample :
    post_process_events (post_process_events
        [⟨"Consig", "Consig", "", 1063996920, 1063997640, "a"⟩,
         ⟨"Dienst", "Dienst", "", 1063997280, 1063998719, "f"⟩,
         ⟨"Consig", "Consig", "", 1063997640, 1063998360, "b"⟩])
      ≠ post_process_events
        [⟨"Consig", "Consig", "", 1063996920, 1063997640, "a"⟩,
         ⟨"Dienst", "Dienst", "", 1063997280, 1063998719, "f"⟩,
         ⟨"Consig", "Consig", "", 1063997640, 1063998360, "b"⟩] := by
  decide

/-- C3 corrected: the Post-Processor is idempotent on event lists whose
events all end after they start and which contain no full-day
generic-duty artifact (the artifact removal can delete an event that
separated two mergeable on-call events, which is what breaks
idempotence in general; the counterexample forces exactly this
exclusion). -/
theorem c3_idempotent_on_artifact_free :
    ∀ l : List Event,
      (∀ e ∈ l, e.start < e.end_) →
      (∀ e ∈ l, isFullDay e = false) →
      post_process_events (post_process_events l) = post_process_events l := by
  intro l hlt hfd
  by_cases hl : l = []
  · subst hl; rfl
  · have hperm := List.perm_insertionSort keyLe l
    have hs_sorted : (List.insertionSort keyLe l).Pairwise keyLe :=
      List.sorted_insertionSort keyLe l
    have hs_lt : ∀ e ∈ List.insertionSort keyLe l, e.start < e.end_ :=
      fun e he => hlt e (hperm.mem_iff.mp he)
    have hs_fd : ∀ e ∈ List.insertionSort keyLe l, isFullDay e = false :=
      fun e he => hfd e (hperm.mem_iff.mp he)
    have hm := mergePass_sorted hs_sorted hs_lt
    have hm_fd := mergePass_noFullDay hs_fd
    have hm_day : (mergePass (List.insertionSort keyLe l)).Pairwise
        (fun a b => dayOf a ≤ dayOf b) :=
      hm.1.imp (fun h => Nat.div_le_div_right (keyLe_start_le h))
    have hrm : removeFullDay (mergePass (List.insertionSort keyLe l))
        = mergePass (List.insertionSort keyLe l) := removeFullDay_noop hm_fd hm_day
    have hsort_m : List.insertionSort keyLe (mergePass (List.insertionSort keyLe l))
        = mergePass (List.insertionSort keyLe l) := List.Sorted.insertionSort_eq hm.1
    have hppl : post_process_events l = mergePass (List.insertionSort keyLe l) := by
      unfold post_process_events
      rw [if_neg hl]
      dsimp only
      rw [hrm, hsort_m]
    have hs_ne : List.insertionSort keyLe l ≠ [] := by
      intro hsnil
      apply hl
      have hlen := hperm.length_eq
      rw [hsnil] at hlen
      exact List.eq_nil_of_length_eq_zero hlen.symm
    have hm_ne : mergePass (List.insertionSort keyLe l) ≠ [] := by
      have h2 := foldl_mergeStep_ne_nil (List.insertionSort keyLe l) [] (Or.inr hs_ne)
      intro hnil
      exact h2 (List.reverse_eq_nil_iff.mp hnil)
    rw [hppl]
    unfold post_process_events
    rw [if_neg hm_ne]
    dsimp only
    rw [hsort_m, mergePass_noop (mergePass_chain _) (fun e he => mergePass_desc e he),
      hrm, hsort_m]

/-- Witness for the amended C3 at a concrete one-event list satisfying
both hypotheses. -/
theorem c3_idempotent_on_artifact_free_witness :
    (∀ e ∈ [(⟨"Consig", "Consig", "", 1063996920, 1063997640, "d"⟩ : Event)],
      e.start < e.end_) ∧
    (∀ e ∈ [(⟨"Consig", "Consig", "", 1063996920, 1063997640, "d"⟩ : Event)],
      isFullDay e = false) ∧
    post_process_events (post_process_events
        [⟨"Consig", "Consig", "", 1063996920, 1063997640, "d"⟩])
      = post_process_events [⟨"Consig", "Consig", "", 1063996920, 1063997640, "d"⟩] :=
  ⟨by decide, by decide,
    c3_idempotent_on_artifact_free
      [⟨"Consig", "Consig", "", 1063996920, 1063997640, "d"⟩] (by decide) (by decide)⟩

end Rooster
